import Mathlib

/-!
Verification of the stream filter in `redact.py` (asciinema cast v2 filter).

The program is a single-pass line transducer: the first line (header) is
copied verbatim; every further line is parsed as JSON; a line that fails to
parse, or parses to anything but a 3-element array whose second element is
the string "o", is copied verbatim; well-formed output-event records are
subject to skip-session detection (cursor-position escape + "Atuin") and
timestamp adjustment.

Modelling conventions:
- timestamps are rationals (exact arithmetic in place of Python floats;
  every claim below is about ordering and exact plus, minus and max
  arithmetic);
- an input line is either `Line.raw s` (a line json.loads rejects) or
  `Line.json v` (a line that parses to the JSON value `v`); the output is a
  list of the same type, an emitted record standing for
  `json.dumps(record)` of the record with its timestamp field replaced;
- Python's uncaught mid-stream exceptions (`float(record[0])` raising
  TypeError/ValueError, `x in text` on a non-string text) are modelled by
  the `err` field of the run result: processing stops there, keeping the
  partial output, exactly as the incremental file writes do.
-/

/-- JSON values as produced by `json.loads`.  Numbers are modelled as one
constructor over ℚ (Python distinguishes int/float; the program only ever
converts the timestamp with `float(...)` and rewrites it, so the
distinction is unobservable here). -/
inductive Json where
  | null
  | bool (b : Bool)
  | num (q : ℚ)
  | str (s : String)
  | arr (elems : List Json)
  | obj (fields : List (String × Json))

/-- One input (or output) line: either a line that `json.loads` rejects
(kept as its raw text), or a line that parses to a JSON value. -/
inductive Line where
  | raw (s : String)
  | json (v : Json)

/-- Mutable scan state of `process_file`.  `target_pattern` and
`skip_start_time` are Python locals first assigned when a skip session is
entered; their initial values below are unobservable before that. -/
structure S where
  skip_mode : Bool
  target_pattern : List Char
  skip_start_time : ℚ
  last_timestamp : ℚ
  time_offset : ℚ
deriving DecidableEq

/-- State at the start of `process_file`: `skip_mode = False`,
`last_timestamp = 0.0`, `time_offset = 0.0`. -/
def initS : S :=
  { skip_mode := false, target_pattern := [], skip_start_time := 0
    last_timestamp := 0, time_offset := 0 }

/-- Maximal leading run of ASCII digits (the greedy `\d+` of the pattern,
whose follower in the regex is never a digit, so greedy = maximal munch). -/
def digitTake : List Char → List Char × List Char
  | [] => ([], [])
  | c :: r =>
    if c.isDigit then
      let p := digitTake r
      (c :: p.1, p.2)
    else ([], c :: r)

/-- Digits to a natural number, as Python `int(...)` on a digit string. -/
def natOfDigits (ds : List Char) : ℕ :=
  ds.foldl (fun n c => 10 * n + (c.toNat - 48)) 0

/-- Match of `\u001b\[(\d+);(\d+)H` anchored at the start of `cs`,
returning (group 1 as written, group 2 via `int`).  ASCII digits model
`\d` (non-ASCII Unicode digits are not modelled). -/
def matchCursorAt (cs : List Char) : Option (String × ℕ) :=
  match cs with
  | '\x1b' :: '[' :: r =>
    let p1 := digitTake r
    if p1.1.isEmpty then none
    else
      match p1.2 with
      | ';' :: r2 =>
        let p2 := digitTake r2
        if p2.1.isEmpty then none
        else
          match p2.2 with
          | 'H' :: _ => some (String.mk p1.1, natOfDigits p2.1)
          | _ => none
      | _ => none
  | _ => none

/-- `ansi_pattern.search(text)`: leftmost match of the cursor-position
pattern, scanning positions left to right. -/
def searchAnsi : List Char → Option (String × ℕ)
  | [] => none
  | c :: r =>
    match matchCursorAt (c :: r) with
    | some m => some m
    | none => searchAnsi r

/-- Python substring containment `pat in s`. -/
def hasSub (pat : List Char) : List Char → Bool
  | [] => pat.isEmpty
  | s@(_ :: rest) => pat.isPrefixOf s || hasSub pat rest

/-- The characters of `'\u001b['`. -/
def escBr : List Char := "\x1b[".data

/-- The characters of `'Atuin'`. -/
def atuin : List Char := "Atuin".data

/-- The exit pattern `f'\u001b[{row};{col-1}H'`: `row` is group 1 verbatim
(leading zeros kept), the column is Python int arithmetic, so `col = 0`
renders as `-1`. -/
def targetOf (row : String) (col : ℕ) : List Char :=
  "\x1b[".data ++ row.data ++ [';'] ++ (toString ((col : ℤ) - 1)).data ++ ['H']

/-- Python `float(x)` on a JSON value: numbers convert, booleans convert
(`float(True) = 1.0`), strings convert when they are simple decimal
literals (sign, digits, fraction, exponent; `inf`/`nan`/whitespace/
underscores are not modelled), everything else raises. -/
def pyFloatStr? (s : String) : Option ℚ :=
  let p0 : ℚ × List Char :=
    match s.data with
    | '-' :: r => (-1, r)
    | '+' :: r => (1, r)
    | cs => (1, cs)
  let ip := digitTake p0.2
  let fp : List Char × List Char :=
    match ip.2 with
    | '.' :: r => digitTake r
    | cs => ([], cs)
  if ip.1.isEmpty && fp.1.isEmpty then none
  else
    let mant : ℚ := (natOfDigits ip.1 : ℚ) + (natOfDigits fp.1 : ℚ) / (10 ^ fp.1.length)
    match fp.2 with
    | [] => some (p0.1 * mant)
    | 'e' :: r | 'E' :: r =>
      let pe : ℤ × List Char :=
        match r with
        | '-' :: r2 => (-1, r2)
        | '+' :: r2 => (1, r2)
        | r2 => (1, r2)
      let ed := digitTake pe.2
      if ed.1.isEmpty || !ed.2.isEmpty then none
      else some (p0.1 * mant * (10 : ℚ) ^ (pe.1 * (natOfDigits ed.1 : ℤ)))
    | _ => none

/-- `float(record[0])` as an optional value; `none` means the uncaught
ValueError/TypeError. -/
def pyFloat? : Json → Option ℚ
  | .num q => some q
  | .bool b => some (if b then 1 else 0)
  | .str s => pyFloatStr? s
  | _ => none

/-- The well-formed-record test of lines 36-39: a list of length 3 whose
second element equals the string "o"; returns `(record[0], record[2])`. -/
def recParts? : Json → Option (Json × Json)
  | .arr [a, .str "o", c] => some (a, c)
  | _ => none

/-- An emitted output-event line: `json.dumps([adjusted, "o", text])`. -/
def mkEv (t : ℚ) (s : String) : Line :=
  .json (.arr [.num t, .str "o", .str s])

/-- One iteration of the loop body of `process_file` for a non-header
line: returns the lines written (0 or 1) and the new state, or the
uncaught exception. -/
def procLine (st : S) : Line → Except String (List Line × S)
  | .raw s => .ok ([.raw s], st)
  | .json v =>
    match recParts? v with
    | none => .ok ([.json v], st)
    | some (a, c) =>
      match pyFloat? a with
      | none => .error "float(record[0]) raised"
      | some t =>
        match c with
        | .str text =>
          if st.skip_mode then
            if hasSub st.target_pattern text.data then
              let off := st.time_offset + (t - st.skip_start_time)
              let adj := max (t - off) st.last_timestamp
              .ok ([mkEv adj text],
                   { st with skip_mode := false, time_offset := off, last_timestamp := adj })
            else
              .ok ([], st)
          else
            if hasSub escBr text.data && hasSub atuin text.data then
              match searchAnsi text.data with
              | some m =>
                .ok ([],
                     { st with
                        skip_mode := true
                        target_pattern := targetOf m.1 m.2
                        skip_start_time := t })
              | none =>
                let adj := max (t - st.time_offset) st.last_timestamp
                .ok ([mkEv adj text], { st with last_timestamp := adj })
            else
              let adj := max (t - st.time_offset) st.last_timestamp
              .ok ([mkEv adj text], { st with last_timestamp := adj })
        | _ => .error "substring test on non-string text raised"

/-- Result of running the loop: lines written, final state, and the
uncaught exception if one stopped the run (the partial output is kept,
matching the incremental file writes). -/
structure RunRes where
  out : List Line
  st : S
  err : Option String

/-- The loop of `process_file` over all lines after the header. -/
def run (st : S) : List Line → RunRes
  | [] => ⟨[], st, none⟩
  | l :: ls =>
    match procLine st l with
    | .error e => ⟨[], st, some e⟩
    | .ok (o, st') =>
      let r := run st' ls
      ⟨o ++ r.out, r.st, r.err⟩

/-- `process_file` on a whole file: the first line is copied verbatim with
no interpretation, the rest go through the loop. -/
def processFile : List Line → RunRes
  | [] => ⟨[], initS, none⟩
  | h :: rest =>
    let r := run initS rest
    ⟨h :: r.out, r.st, r.err⟩

/-- The record fields when a line is a well-typed output-event record as
the data model describes one (float-convertible timestamp, string text):
these are the lines the loop's event branch handles without raising. -/
def evFloat? : Line → Option (ℚ × String)
  | .raw _ => none
  | .json v =>
    match recParts? v with
    | some (a, .str s) => (pyFloat? a).map (fun t => (t, s))
    | _ => none

/-- Timestamps of the well-typed output-event records of a line list, in
order. -/
def evTimes (ls : List Line) : List ℚ :=
  ls.filterMap (fun l => (evFloat? l).map (fun p => p.1))

/-- Erase the timestamp slot of an event-shaped line (used to state that
the output is the input minus skipped records, up to timestamp rewrites). -/
def stripTs : Line → Line
  | .json (.arr [_, .str "o", c]) => .json (.arr [.null, .str "o", c])
  | l => l

/-- Lines the loop copies through verbatim: unparseable lines, and JSON
values failing the 3-element-array-with-"o" test. -/
def isPass : Line → Bool
  | .raw _ => true
  | .json v => (recParts? v).isNone

/-- A line the loop can process without raising: either a pass-through
line, or an event record with float-convertible timestamp and string
text. -/
def lineOk (l : Line) : Bool :=
  isPass l || (evFloat? l).isSome

/-- All lines processable without raising. -/
def lineOkAll (ls : List Line) : Bool := ls.all lineOk

/-- The skip-entry test of lines 46-48 on an event text: contains ESC-[,
contains "Atuin", and the cursor-position search succeeds. -/
def entryCond (s : String) : Bool :=
  hasSub escBr s.data && hasSub atuin s.data && (searchAnsi s.data).isSome

/-- The text of an event-shaped line when that text is a string. -/
def textOf? : Line → Option String
  | .raw _ => none
  | .json v =>
    match recParts? v with
    | some (_, .str s) => some s
    | _ => none

/-- No skip session can start at this line. -/
def noMarkerLine (l : Line) : Bool :=
  match textOf? l with
  | some s => !entryCond s
  | none => true

/-- No line of the list can start a skip session. -/
def noMarkerAll (ls : List Line) : Bool := ls.all noMarkerLine

/-- The no-skip processing of a line list with offset `θ` already
accumulated: every event record is emitted at `max (t - θ) last`, other
lines pass through.  This is what the loop does when no entry marker ever
fires. -/
def clampOff (θ last : ℚ) : List Line → List Line
  | [] => []
  | l :: rest =>
    match evFloat? l with
    | some (t, s) => mkEv (max (t - θ) last) s :: clampOff θ (max (t - θ) last) rest
    | none => l :: clampOff θ last rest

/-- Modelled from the spec's words (the refinement target of C5): each
output-event timestamp is clamped to be at least the running maximum of
emitted timestamps, all other lines are unchanged. -/
def clampSpec (last : ℚ) : List Line → List Line
  | [] => []
  | l :: rest =>
    match evFloat? l with
    | some (t, s) => mkEv (max t last) s :: clampSpec (max t last) rest
    | none => l :: clampSpec last rest

/-- An event line in emitted normal form: timestamp slot an actual JSON
number, text a string. -/
def evLine? : Line → Option (ℚ × String)
  | .json (.arr [.num t, .str "o", .str s]) => some (t, s)
  | _ => none

/-- Shift the timestamp of a normal-form event line down by `θ`. -/
def shiftEv (θ : ℚ) (l : Line) : Line :=
  match evLine? l with
  | some (t, s) => mkEv (t - θ) s
  | none => l

/-- A sorted, marker-free, well-formed no-skip segment relative to
accumulated offset `θ` and last emitted timestamp `last`: every event
line is in normal form, fires no skip entry, and its timestamp stays at
or above `last + θ`; every other line is a pass-through line. -/
def segOk (θ : ℚ) (last : ℚ) : List Line → Bool
  | [] => true
  | l :: rest =>
    match evLine? l with
    | some (t, s) => !entryCond s && decide (last + θ ≤ t) && segOk θ (t - θ) rest
    | none => isPass l && segOk θ last rest

/-- The last emitted timestamp after running a `segOk` segment. -/
def segLast (θ : ℚ) (last : ℚ) : List Line → ℚ
  | [] => last
  | l :: rest =>
    match evLine? l with
    | some (t, _) => segLast θ (t - θ) rest
    | none => segLast θ last rest

/-- Every line is a normal-form event record whose text does not contain
`tgt` (the shape of a fully skipped interval). -/
def midOk (tgt : List Char) (ls : List Line) : Bool :=
  ls.all (fun l =>
    match evLine? l with
    | some p => !hasSub tgt p.2.data
    | none => false)

/-- No event text of the list contains `tgt`. -/
def noTargetAll (tgt : List Char) (ls : List Line) : Bool :=
  ls.all (fun l =>
    match textOf? l with
    | some s => !hasSub tgt s.data
    | none => true)

/-- All elements at least `x`. -/
def allLe (x : ℚ) (ts : List ℚ) : Bool := ts.all (fun t => decide (x ≤ t))

/-- Adjacent non-decreasing. -/
def sortedB : List ℚ → Bool
  | [] => true
  | [_] => true
  | a :: b :: r => decide (a ≤ b) && sortedB (b :: r)

/-- Well-formedness of an output produced from last emitted timestamp
`last`: event lines are in normal form with non-decreasing timestamps
starting at or above `last`, all other lines are pass-through lines. -/
def OutWF (last : ℚ) : List Line → Prop
  | [] => True
  | l :: rest =>
    match evLine? l with
    | some (t, _) => last ≤ t ∧ OutWF t rest
    | none => isPass l = true ∧ OutWF last rest

theorem recParts?_eq_some {v a c : Json} (h : recParts? v = some (a, c)) :
    v = .arr [a, .str "o", c] := by
  unfold recParts? at h
  split at h
  · simp only [Option.some.injEq, Prod.mk.injEq] at h
    rw [h.1, h.2]
  · exact absurd h (by simp)

theorem evLine?_eq_some {l : Line} {t : ℚ} {s : String}
    (h : evLine? l = some (t, s)) : l = mkEv t s := by
  unfold evLine? at h
  split at h
  · simp only [Option.some.injEq, Prod.mk.injEq] at h
    rw [mkEv, h.1, h.2]
  · exact absurd h (by simp)

theorem evLine?_mkEv (t : ℚ) (s : String) : evLine? (mkEv t s) = some (t, s) := rfl

theorem evFloat?_mkEv (t : ℚ) (s : String) : evFloat? (mkEv t s) = some (t, s) := rfl

theorem evLine?_evFloat {l : Line} {t : ℚ} {s : String}
    (h : evLine? l = some (t, s)) : evFloat? l = some (t, s) := by
  rw [evLine?_eq_some h]; rfl

theorem isPass_evFloat {l : Line} (h : isPass l = true) : evFloat? l = none := by
  cases l with
  | raw s => rfl
  | json v =>
    simp only [isPass, Option.isNone_iff_eq_none] at h
    simp [evFloat?, h]

theorem isPass_evLine {l : Line} (h : isPass l = true) : evLine? l = none := by
  cases he : evLine? l with
  | none => rfl
  | some p =>
    have hl := evLine?_eq_some (t := p.1) (s := p.2) (by rw [he])
    rw [hl] at h
    exact absurd h (by simp [isPass, mkEv, recParts?])

theorem evTimes_cons_some {l : Line} {t : ℚ} {s : String}
    (h : evFloat? l = some (t, s)) (r : List Line) :
    evTimes (l :: r) = t :: evTimes r := by
  simp [evTimes, h]

theorem evTimes_cons_none {l : Line} (h : evFloat? l = none) (r : List Line) :
    evTimes (l :: r) = evTimes r := by
  simp [evTimes, h]

theorem procLine_exhaust (st : S) (l : Line) :
    (∃ e, procLine st l = .error e) ∨
    (isPass l = true ∧ procLine st l = .ok ([l], st)) ∨
    (∃ a t s, l = Line.json (.arr [a, .str "o", .str s]) ∧ pyFloat? a = some t ∧
      ((∃ m, st.skip_mode = false ∧ searchAnsi s.data = some m ∧
          hasSub escBr s.data = true ∧ hasSub atuin s.data = true ∧
          procLine st l = .ok ([],
            { st with skip_mode := true, target_pattern := targetOf m.1 m.2,
                      skip_start_time := t })) ∨
       (st.skip_mode = false ∧
          procLine st l = .ok ([mkEv (max (t - st.time_offset) st.last_timestamp) s],
            { st with last_timestamp := max (t - st.time_offset) st.last_timestamp })) ∨
       (st.skip_mode = true ∧ hasSub st.target_pattern s.data = false ∧
          procLine st l = .ok ([], st)) ∨
       (st.skip_mode = true ∧ hasSub st.target_pattern s.data = true ∧
          procLine st l = .ok
            ([mkEv (max (t - (st.time_offset + (t - st.skip_start_time))) st.last_timestamp) s],
             { st with skip_mode := false,
                       time_offset := st.time_offset + (t - st.skip_start_time),
                       last_timestamp :=
                         max (t - (st.time_offset + (t - st.skip_start_time)))
                             st.last_timestamp })))) := by
  cases l with
  | raw s => exact Or.inr (Or.inl ⟨rfl, rfl⟩)
  | json v =>
    cases hv : recParts? v with
    | none =>
      refine Or.inr (Or.inl ⟨?_, ?_⟩)
      · simp [isPass, hv]
      · simp [procLine, hv]
    | some p =>
      obtain ⟨a, c⟩ := p
      have hveq := recParts?_eq_some hv
      cases hf : pyFloat? a with
      | none => exact Or.inl ⟨"float(record[0]) raised", by simp [procLine, hv, hf]⟩
      | some t =>
        cases c with
        | str s =>
          refine Or.inr (Or.inr ⟨a, t, s, by rw [hveq], hf, ?_⟩)
          cases hsk : st.skip_mode with
          | true =>
            cases ht : hasSub st.target_pattern s.data with
            | true =>
              refine Or.inr (Or.inr (Or.inr ⟨rfl, rfl, ?_⟩))
              simp [procLine, hv, hf, hsk, ht]
            | false =>
              refine Or.inr (Or.inr (Or.inl ⟨rfl, rfl, ?_⟩))
              simp [procLine, hv, hf, hsk, ht]
          | false =>
            cases hc : hasSub escBr s.data && hasSub atuin s.data with
            | true =>
              cases hsr : searchAnsi s.data with
              | some m =>
                have hc' := hc
                rw [Bool.and_eq_true] at hc'
                refine Or.inl ⟨m, rfl, rfl, hc'.1, hc'.2, ?_⟩
                simp [procLine, hv, hf, hsk, hc, hsr]
              | none =>
                refine Or.inr (Or.inl ⟨rfl, ?_⟩)
                simp [procLine, hv, hf, hsk, hc, hsr]
            | false =>
              refine Or.inr (Or.inl ⟨rfl, ?_⟩)
              simp [procLine, hv, hf, hsk, hc]
        | null =>
          exact Or.inl ⟨"substring test on non-string text raised", by simp [procLine, hv, hf]⟩
        | bool b =>
          exact Or.inl ⟨"substring test on non-string text raised", by simp [procLine, hv, hf]⟩
        | num q =>
          exact Or.inl ⟨"substring test on non-string text raised", by simp [procLine, hv, hf]⟩
        | arr xs =>
          exact Or.inl ⟨"substring test on non-string text raised", by simp [procLine, hv, hf]⟩
        | obj fs =>
          exact Or.inl ⟨"substring test on non-string text raised", by simp [procLine, hv, hf]⟩

theorem run_cons_ok {st : S} {l : Line} {o : List Line} {st' : S}
    (h : procLine st l = .ok (o, st')) (ls : List Line) :
    run st (l :: ls) = ⟨o ++ (run st' ls).out, (run st' ls).st, (run st' ls).err⟩ := by
  simp [run, h]

theorem run_cons_err {st : S} {l : Line} {e : String}
    (h : procLine st l = .error e) (ls : List Line) :
    run st (l :: ls) = ⟨[], st, some e⟩ := by
  simp [run, h]

theorem run_append_ok {st : S} {xs : List Line} {o : List Line} {st1 : S}
    (h : run st xs = ⟨o, st1, none⟩) (ys : List Line) :
    run st (xs ++ ys) = ⟨o ++ (run st1 ys).out, (run st1 ys).st, (run st1 ys).err⟩ := by
  induction xs generalizing st o with
  | nil =>
    simp only [run, RunRes.mk.injEq] at h
    obtain ⟨ho, hst, -⟩ := h
    subst hst
    rw [List.nil_append, ← ho, List.nil_append]
  | cons l xs ih =>
    cases hp : procLine st l with
    | error e =>
      rw [run_cons_err hp] at h
      simp only [RunRes.mk.injEq] at h
      exact absurd h.2.2 (by simp)
    | ok p =>
      obtain ⟨o1, st'⟩ := p
      rw [run_cons_ok hp] at h
      simp only [RunRes.mk.injEq] at h
      obtain ⟨ho, hst, herr⟩ := h
      have hxs : run st' xs = ⟨(run st' xs).out, st1, none⟩ := by
        rw [← hst, ← herr]
      have hstep := ih hxs
      show run st (l :: (xs ++ ys)) = _
      rw [run_cons_ok hp, hstep, ← ho]
      simp

theorem run_main (ls : List Line) : ∀ st : S,
    OutWF st.last_timestamp (run st ls).out ∧
    st.last_timestamp ≤ (run st ls).st.last_timestamp ∧
    List.Sublist (List.map stripTs (run st ls).out) (List.map stripTs ls) := by
  induction ls with
  | nil => exact fun st => ⟨trivial, le_refl _, by simp [run]⟩
  | cons l ls ih =>
    intro st
    rcases procLine_exhaust st l with ⟨e, he⟩ | ⟨hp, he⟩ | ⟨a, t, s, hl, hf, hcs⟩
    · rw [run_cons_err he]
      exact ⟨trivial, le_refl _, List.nil_sublist _⟩
    · rw [run_cons_ok he]
      obtain ⟨h1, h2, h3⟩ := ih st
      refine ⟨?_, h2, ?_⟩
      · show OutWF _ (l :: (run st ls).out)
        simp only [OutWF, isPass_evLine hp]
        exact ⟨hp, h1⟩
      · show List.Sublist (List.map stripTs (l :: (run st ls).out)) _
        simp only [List.map_cons]
        exact List.Sublist.cons₂ _ h3
    · rcases hcs with ⟨m, hsk, hsr, hA, hB, he⟩ | ⟨hsk, he⟩ | ⟨hsk, ht, he⟩ | ⟨hsk, ht, he⟩
      · -- skip entry: nothing written, timestamps untouched
        rw [run_cons_ok he]
        obtain ⟨h1, h2, h3⟩ :=
          ih { st with skip_mode := true, target_pattern := targetOf m.1 m.2,
                       skip_start_time := t }
        exact ⟨h1, h2, by simpa using List.Sublist.cons _ h3⟩
      · -- plain emit
        rw [run_cons_ok he]
        obtain ⟨h1, h2, h3⟩ :=
          ih { st with last_timestamp := max (t - st.time_offset) st.last_timestamp }
        refine ⟨?_, le_trans (le_max_right _ _) h2, ?_⟩
        · show OutWF _ (mkEv _ s :: _)
          simp only [OutWF, evLine?_mkEv]
          exact ⟨le_max_right _ _, h1⟩
        · show List.Sublist (List.map stripTs (mkEv _ s :: (run _ ls).out)) _
          simp only [List.map_cons]
          have hstrip : stripTs (mkEv (max (t - st.time_offset) st.last_timestamp) s)
              = stripTs l := by
            rw [hl]; rfl
          rw [hstrip]
          exact List.Sublist.cons₂ _ h3
      · -- skipped record: dropped
        rw [run_cons_ok he]
        obtain ⟨h1, h2, h3⟩ := ih st
        exact ⟨h1, h2, by simpa using List.Sublist.cons _ h3⟩
      · -- skip exit: emitted with the freshly increased offset
        rw [run_cons_ok he]
        obtain ⟨h1, h2, h3⟩ :=
          ih { st with skip_mode := false,
                       time_offset := st.time_offset + (t - st.skip_start_time),
                       last_timestamp :=
                         max (t - (st.time_offset + (t - st.skip_start_time)))
                             st.last_timestamp }
        refine ⟨?_, le_trans (le_max_right _ _) h2, ?_⟩
        · show OutWF _ (mkEv _ s :: _)
          simp only [OutWF, evLine?_mkEv]
          exact ⟨le_max_right _ _, h1⟩
        · show List.Sublist (List.map stripTs (mkEv _ s :: (run _ ls).out)) _
          simp only [List.map_cons]
          have hstrip : stripTs (mkEv
              (max (t - (st.time_offset + (t - st.skip_start_time))) st.last_timestamp) s)
              = stripTs l := by
            rw [hl]; rfl
          rw [hstrip]
          exact List.Sublist.cons₂ _ h3

theorem OutWF_chain {last : ℚ} : ∀ {out : List Line}, OutWF last out →
    List.Chain (· ≤ ·) last (evTimes out) := by
  intro out
  induction out generalizing last with
  | nil => intro _; simp [evTimes]
  | cons l rest ih =>
    intro h
    cases he : evLine? l with
    | some p =>
      obtain ⟨t, s⟩ := p
      simp only [OutWF, he] at h
      rw [evTimes_cons_some (evLine?_evFloat he)]
      exact List.Chain.cons h.1 (ih h.2)
    | none =>
      simp only [OutWF, he] at h
      rw [evTimes_cons_none (isPass_evFloat h.1)]
      exact ih h.2

theorem chain_chain' {last : ℚ} {ts : List ℚ} (h : List.Chain (· ≤ ·) last ts) :
    List.Chain' (· ≤ ·) ts := by
  cases ts with
  | nil => simp
  | cons a r => exact (List.chain_cons.mp h).2

theorem shiftEv_none {θ : ℚ} {l : Line} (h : evLine? l = none) : shiftEv θ l = l := by
  simp [shiftEv, h]

theorem shiftEv_some {θ : ℚ} {l : Line} {t : ℚ} {s : String}
    (h : evLine? l = some (t, s)) : shiftEv θ l = mkEv (t - θ) s := by
  simp [shiftEv, h]

theorem shiftEv_zero (l : Line) : shiftEv 0 l = l := by
  cases he : evLine? l with
  | none => simp [shiftEv, he]
  | some p =>
    obtain ⟨t, s⟩ := p
    rw [shiftEv_some he, sub_zero]
    exact (evLine?_eq_some he).symm

theorem procLine_pass_raw (st : S) (s : String) :
    procLine st (.raw s) = .ok ([.raw s], st) := rfl

theorem procLine_pass_json (st : S) {v : Json} (h : recParts? v = none) :
    procLine st (.json v) = .ok ([.json v], st) := by
  simp [procLine, h]

theorem procLine_entry {st : S} {a : Json} {t : ℚ} {s : String} {m : String × ℕ}
    (hsk : st.skip_mode = false) (hf : pyFloat? a = some t)
    (hA : hasSub escBr s.data = true) (hB : hasSub atuin s.data = true)
    (hsr : searchAnsi s.data = some m) :
    procLine st (.json (.arr [a, .str "o", .str s])) =
      .ok ([],
        { st with skip_mode := true, target_pattern := targetOf m.1 m.2,
                  skip_start_time := t }) := by
  simp [procLine, recParts?, hf, hsk, hA, hB, hsr]

theorem procLine_emit {st : S} {a : Json} {t : ℚ} {s : String}
    (hsk : st.skip_mode = false) (hf : pyFloat? a = some t)
    (hnc : entryCond s = false) :
    procLine st (.json (.arr [a, .str "o", .str s])) =
      .ok ([mkEv (max (t - st.time_offset) st.last_timestamp) s],
           { st with last_timestamp := max (t - st.time_offset) st.last_timestamp }) := by
  cases hc : hasSub escBr s.data && hasSub atuin s.data with
  | false => simp [procLine, recParts?, hf, hsk, hc]
  | true =>
    have hsr : searchAnsi s.data = none := by
      cases hv : searchAnsi s.data with
      | none => rfl
      | some m => exact absurd (by simp [entryCond, hc, hv]) (by simp [hnc] : ¬entryCond s = true)
    simp [procLine, recParts?, hf, hsk, hc, hsr]

theorem procLine_skip_drop {st : S} {a : Json} {t : ℚ} {s : String}
    (hsk : st.skip_mode = true) (hf : pyFloat? a = some t)
    (ht : hasSub st.target_pattern s.data = false) :
    procLine st (.json (.arr [a, .str "o", .str s])) = .ok ([], st) := by
  simp [procLine, recParts?, hf, hsk, ht]

theorem procLine_skip_exit {st : S} {a : Json} {t : ℚ} {s : String}
    (hsk : st.skip_mode = true) (hf : pyFloat? a = some t)
    (ht : hasSub st.target_pattern s.data = true) :
    procLine st (.json (.arr [a, .str "o", .str s])) =
      .ok ([mkEv (max (t - (st.time_offset + (t - st.skip_start_time))) st.last_timestamp) s],
           { st with skip_mode := false,
                     time_offset := st.time_offset + (t - st.skip_start_time),
                     last_timestamp := max (t - (st.time_offset + (t - st.skip_start_time)))
                                           st.last_timestamp }) := by
  simp [procLine, recParts?, hf, hsk, ht]

theorem procLine_pass {st : S} {l : Line} (hp : isPass l = true) :
    procLine st l = .ok ([l], st) := by
  cases l with
  | raw s => rfl
  | json v =>
    exact procLine_pass_json st (by simpa [isPass, Option.isNone_iff_eq_none] using hp)

theorem lineOk_cases {l : Line} (h : lineOk l = true) :
    isPass l = true ∨
    ∃ a t s, l = Line.json (.arr [a, .str "o", .str s]) ∧ pyFloat? a = some t := by
  rw [lineOk, Bool.or_eq_true] at h
  rcases h with h | h
  · exact Or.inl h
  · right
    cases l with
    | raw s => simp [evFloat?] at h
    | json v =>
      cases hv : recParts? v with
      | none => simp only [evFloat?, hv] at h; simp at h
      | some p =>
        obtain ⟨a, c⟩ := p
        cases c with
        | str s =>
          simp only [evFloat?, hv] at h
          cases hf : pyFloat? a with
          | none => rw [hf] at h; simp at h
          | some t => exact ⟨a, t, s, by rw [recParts?_eq_some hv], hf⟩
        | null => simp only [evFloat?, hv] at h; simp at h
        | bool b => simp only [evFloat?, hv] at h; simp at h
        | num q => simp only [evFloat?, hv] at h; simp at h
        | arr xs => simp only [evFloat?, hv] at h; simp at h
        | obj fs => simp only [evFloat?, hv] at h; simp at h

theorem seg_run : ∀ (ls : List Line) (st : S), st.skip_mode = false →
    segOk st.time_offset st.last_timestamp ls = true →
    run st ls =
      ⟨ls.map (shiftEv st.time_offset),
       { st with last_timestamp := segLast st.time_offset st.last_timestamp ls }, none⟩ := by
  intro ls
  induction ls with
  | nil => intro st _ _; simp [run, segLast]
  | cons l rest ih =>
    intro st hsk hseg
    cases he : evLine? l with
    | some p =>
      obtain ⟨t, s⟩ := p
      simp only [segOk, he, Bool.and_eq_true, decide_eq_true_eq] at hseg
      obtain ⟨⟨hnc, hle⟩, hrest⟩ := hseg
      have hnc' : entryCond s = false := by simpa using hnc
      have hmax : max (t - st.time_offset) st.last_timestamp = t - st.time_offset :=
        max_eq_left (le_sub_iff_add_le.mpr hle)
      have hstep : procLine st l =
          .ok ([mkEv (t - st.time_offset) s],
               { st with last_timestamp := t - st.time_offset }) := by
        rw [evLine?_eq_some he]
        rw [show (mkEv t s : Line) = .json (.arr [.num t, .str "o", .str s]) from rfl]
        rw [procLine_emit (a := .num t) hsk rfl hnc', hmax]
      rw [run_cons_ok hstep]
      rw [ih { st with last_timestamp := t - st.time_offset } hsk hrest]
      simp [shiftEv_some he, segLast, he]
    | none =>
      simp only [segOk, he, Bool.and_eq_true] at hseg
      obtain ⟨hp, hrest⟩ := hseg
      rw [run_cons_ok (procLine_pass hp)]
      rw [ih st hsk hrest]
      simp [shiftEv_none (isPass_evLine hp), segLast, he]

theorem skip_run : ∀ (ls : List Line) (st : S), st.skip_mode = true →
    midOk st.target_pattern ls = true →
    run st ls = ⟨[], st, none⟩ := by
  intro ls
  induction ls with
  | nil => intro st _ _; simp [run]
  | cons l rest ih =>
    intro st hsk hmid
    simp only [midOk, List.all_cons, Bool.and_eq_true] at hmid
    obtain ⟨hl1, hrest⟩ := hmid
    cases he : evLine? l with
    | none => simp only [he] at hl1; exact absurd hl1 (by simp)
    | some p =>
      obtain ⟨t, s⟩ := p
      simp only [he] at hl1
      have ht : hasSub st.target_pattern s.data = false := by simpa using hl1
      have hstep : procLine st l = .ok ([], st) := by
        rw [evLine?_eq_some he]
        exact procLine_skip_drop (a := .num t) hsk rfl ht
      rw [run_cons_ok hstep, ih st hsk hrest]
      simp

theorem clamp_run : ∀ (ls : List Line) (st : S), st.skip_mode = false →
    lineOkAll ls = true → noMarkerAll ls = true →
    (run st ls).out = clampOff st.time_offset st.last_timestamp ls ∧
    (run st ls).err = none := by
  intro ls
  induction ls with
  | nil => intro st _ _ _; simp [run, clampOff]
  | cons l rest ih =>
    intro st hsk hok hnm
    simp only [lineOkAll, List.all_cons, Bool.and_eq_true] at hok
    simp only [noMarkerAll, List.all_cons, Bool.and_eq_true] at hnm
    obtain ⟨hok1, hokr⟩ := hok
    obtain ⟨hnm1, hnmr⟩ := hnm
    rcases lineOk_cases hok1 with hp | ⟨a, t, s, hl, hf⟩
    · rw [run_cons_ok (procLine_pass hp)]
      obtain ⟨ho, herr⟩ := ih st hsk hokr hnmr
      refine ⟨?_, by simpa using herr⟩
      simp only [clampOff, isPass_evFloat hp]
      simp [ho]
    · have htx : textOf? l = some s := by rw [hl]; rfl
      have hnc : entryCond s = false := by
        simp only [noMarkerLine, htx] at hnm1
        simpa using hnm1
      have hstep : procLine st l =
          .ok ([mkEv (max (t - st.time_offset) st.last_timestamp) s],
               { st with last_timestamp := max (t - st.time_offset) st.last_timestamp }) := by
        rw [hl]; exact procLine_emit hsk hf hnc
      rw [run_cons_ok hstep]
      obtain ⟨ho, herr⟩ :=
        ih { st with last_timestamp := max (t - st.time_offset) st.last_timestamp }
          hsk hokr hnmr
      have hev : evFloat? l = some (t, s) := by rw [hl]; simp [evFloat?, recParts?, hf]
      refine ⟨?_, by simpa using herr⟩
      simp only [clampOff, hev]
      simp [ho]

theorem clampOff_zero : ∀ (ls : List Line) (last : ℚ),
    clampOff 0 last ls = clampSpec last ls := by
  intro ls
  induction ls with
  | nil => intro last; rfl
  | cons l rest ih =>
    intro last
    cases he : evFloat? l with
    | none => simp [clampOff, clampSpec, he, ih]
    | some p =>
      obtain ⟨t, s⟩ := p
      simp [clampOff, clampSpec, he, sub_zero, ih]

theorem segOk_clamp_id : ∀ (ls : List Line) (θ last : ℚ), segOk θ last ls = true →
    clampSpec (last + θ) ls = ls := by
  intro ls
  induction ls with
  | nil => intro θ last _; rfl
  | cons l rest ih =>
    intro θ last hseg
    cases he : evLine? l with
    | none =>
      simp only [segOk, he, Bool.and_eq_true] at hseg
      obtain ⟨hp, hrest⟩ := hseg
      simp [clampSpec, isPass_evFloat hp, ih _ _ hrest]
    | some p =>
      obtain ⟨t, s⟩ := p
      simp only [segOk, he, Bool.and_eq_true, decide_eq_true_eq] at hseg
      obtain ⟨⟨hnc, hle⟩, hrest⟩ := hseg
      have hev := evLine?_evFloat he
      have hmax : max t (last + θ) = t := max_eq_left hle
      have hrec := ih θ (t - θ) hrest
      have harith : t - θ + θ = t := by ring
      rw [harith] at hrec
      simp [clampSpec, hev, hmax, hrec, (evLine?_eq_some he).symm]

theorem outWF_segOk : ∀ (out : List Line) (last : ℚ), OutWF last out →
    noMarkerAll out = true → segOk 0 last out = true := by
  intro out
  induction out with
  | nil => intro last _ _; rfl
  | cons l rest ih =>
    intro last hwf hnm
    simp only [noMarkerAll, List.all_cons, Bool.and_eq_true] at hnm
    obtain ⟨hnm1, hnmr⟩ := hnm
    cases he : evLine? l with
    | some p =>
      obtain ⟨t, s⟩ := p
      simp only [OutWF, he] at hwf
      obtain ⟨hle, hwfr⟩ := hwf
      have htx : textOf? l = some s := by rw [evLine?_eq_some he]; rfl
      have hnc : entryCond s = false := by
        simp only [noMarkerLine, htx] at hnm1
        simpa using hnm1
      simp only [segOk, he, Bool.and_eq_true, decide_eq_true_eq]
      refine ⟨⟨by simp [hnc], by rw [add_zero]; exact hle⟩, ?_⟩
      rw [sub_zero]
      exact ih t hwfr hnmr
    | none =>
      simp only [OutWF, he] at hwf
      obtain ⟨hp, hwfr⟩ := hwf
      simp only [segOk, he, Bool.and_eq_true]
      exact ⟨hp, ih last hwfr hnmr⟩

theorem map_shiftEv_zero : ∀ ls : List Line, ls.map (shiftEv 0) = ls := by
  intro ls
  induction ls with
  | nil => rfl
  | cons l rest ih => rw [List.map_cons, shiftEv_zero, ih]

theorem allLe_iff {x : ℚ} {ts : List ℚ} : allLe x ts = true ↔ ∀ t ∈ ts, x ≤ t := by
  simp [allLe]

theorem sortedB_cons {a : ℚ} {l : List ℚ} (h : sortedB (a :: l) = true) :
    allLe a l = true ∧ sortedB l = true := by
  induction l generalizing a with
  | nil => exact ⟨rfl, rfl⟩
  | cons b r ih =>
    simp only [sortedB, Bool.and_eq_true, decide_eq_true_eq] at h
    obtain ⟨hab, hbr⟩ := h
    obtain ⟨hb, -⟩ := ih hbr
    refine ⟨?_, hbr⟩
    rw [allLe_iff]
    intro u hu
    rcases List.mem_cons.mp hu with rfl | hur
    · exact hab
    · exact le_trans hab (allLe_iff.mp hb u hur)

theorem off_mono : ∀ (ls : List Line) (st : S),
    (st.skip_mode = true → allLe st.skip_start_time (evTimes ls) = true) →
    sortedB (evTimes ls) = true →
    st.time_offset ≤ (run st ls).st.time_offset := by
  intro ls
  induction ls with
  | nil => intro st _ _; exact le_refl _
  | cons l rest ih =>
    intro st hstart hsort
    rcases procLine_exhaust st l with ⟨e, he⟩ | ⟨hp, he⟩ | ⟨a, t, s, hl, hf, hcs⟩
    · rw [run_cons_err he]
    · rw [run_cons_ok he]
      have hev := isPass_evFloat hp
      rw [evTimes_cons_none hev] at hstart hsort
      show st.time_offset ≤ (run st rest).st.time_offset
      exact ih st hstart hsort
    · have hev : evFloat? l = some (t, s) := by rw [hl]; simp [evFloat?, recParts?, hf]
      rw [evTimes_cons_some hev] at hstart hsort
      have hsort' := sortedB_cons hsort
      rcases hcs with ⟨m, hsk, hsr, hA, hB, he⟩ | ⟨hsk, he⟩ | ⟨hsk, ht, he⟩ | ⟨hsk, ht, he⟩
      · rw [run_cons_ok he]
        show st.time_offset ≤
          (run { st with skip_mode := true, target_pattern := targetOf m.1 m.2,
                         skip_start_time := t } rest).st.time_offset
        exact ih _ (fun _ => hsort'.1) hsort'.2
      · rw [run_cons_ok he]
        show st.time_offset ≤
          (run { st with
                  last_timestamp := max (t - st.time_offset) st.last_timestamp }
            rest).st.time_offset
        refine ih _ (fun hsk' => ?_) hsort'.2
        rw [show ({ st with last_timestamp := max (t - st.time_offset) st.last_timestamp }
              : S).skip_mode = st.skip_mode from rfl, hsk] at hsk'
        exact absurd hsk' (by simp)
      · rw [run_cons_ok he]
        show st.time_offset ≤ (run st rest).st.time_offset
        refine ih st (fun hsk' => ?_) hsort'.2
        have h1 := hstart hsk'
        rw [allLe_iff] at h1 ⊢
        exact fun u hu => h1 u (List.mem_cons_of_mem _ hu)
      · rw [run_cons_ok he]
        have hst : st.skip_start_time ≤ t := by
          have h1 := hstart hsk
          rw [allLe_iff] at h1
          exact h1 t (List.mem_cons_self _ _)
        have hoff : st.time_offset ≤ st.time_offset + (t - st.skip_start_time) := by
          have h0 : 0 ≤ t - st.skip_start_time := sub_nonneg.mpr hst
          linarith
        show st.time_offset ≤
          (run { st with skip_mode := false,
                         time_offset := st.time_offset + (t - st.skip_start_time),
                         last_timestamp :=
                           max (t - (st.time_offset + (t - st.skip_start_time)))
                               st.last_timestamp } rest).st.time_offset
        refine le_trans hoff (ih _ (fun hsk' => ?_) hsort'.2)
        exact absurd hsk' (by simp)

theorem procLine_ok_of_shape {st : S} {a : Json} {t : ℚ} (s : String)
    (hf : pyFloat? a = some t) :
    ∃ o st', procLine st (.json (.arr [a, .str "o", .str s])) = .ok (o, st') := by
  cases hsk : st.skip_mode with
  | true =>
    cases ht : hasSub st.target_pattern s.data with
    | true => exact ⟨_, _, procLine_skip_exit hsk hf ht⟩
    | false => exact ⟨_, _, procLine_skip_drop hsk hf ht⟩
  | false =>
    cases hc : entryCond s with
    | false => exact ⟨_, _, procLine_emit hsk hf hc⟩
    | true =>
      simp only [entryCond, Bool.and_eq_true] at hc
      obtain ⟨⟨hA, hB⟩, hS⟩ := hc
      obtain ⟨m, hm⟩ := Option.isSome_iff_exists.mp hS
      exact ⟨_, _, procLine_entry hsk hf hA hB hm⟩

theorem run_err_none : ∀ (ls : List Line) (st : S), lineOkAll ls = true →
    (run st ls).err = none := by
  intro ls
  induction ls with
  | nil => intro st _; rfl
  | cons l rest ih =>
    intro st hok
    simp only [lineOkAll, List.all_cons, Bool.and_eq_true] at hok
    obtain ⟨hok1, hokr⟩ := hok
    rcases lineOk_cases hok1 with hp | ⟨a, t, s, hl, hf⟩
    · rw [run_cons_ok (procLine_pass hp)]
      exact ih st hokr
    · obtain ⟨o, st', hstep⟩ := @procLine_ok_of_shape st a t s hf
      have hstep' : procLine st l = .ok (o, st') := by rw [hl]; exact hstep
      rw [run_cons_ok hstep']
      exact ih st' hokr

/-- Claim C1 (confirmed).  For every list of lines fed to the record loop
(everything after the header, which is copied verbatim and is not an
emitted record), the emitted output-event records carry non-decreasing
timestamps, and the output lines with event timestamps erased form a
sublist of the input lines likewise erased: the non-skipped records appear
in the output in their input order.  This also holds for the partial
output of a run stopped by an uncaught exception. -/
theorem c1_output_order (ls : List Line) :
    List.Chain' (· ≤ ·) (evTimes (run initS ls).out) ∧
    List.Sublist (List.map stripTs (run initS ls).out) (List.map stripTs ls) := by
  obtain ⟨h1, h2, h3⟩ := run_main ls initS
  exact ⟨chain_chain' (OutWF_chain h1), h3⟩

/-- Claim C3 (confirmed).  With no skip session active, an output-event
record whose text contains "Atuin" and a cursor-position sequence starts a
skip session: the first match found by the left-to-right search fixes the
exit pattern ESC[row;(col-1)H, the skip start time becomes the record's
timestamp, nothing is written, and `last_timestamp` and `time_offset` are
unchanged. -/
theorem c3_skip_entry (st : S) (a : Json) (t : ℚ) (s row : String) (col : ℕ)
    (h0 : st.skip_mode = false)
    (h1 : pyFloat? a = some t)
    (h2 : hasSub escBr s.data = true)
    (h3 : hasSub atuin s.data = true)
    (h4 : searchAnsi s.data = some (row, col)) :
    procLine st (.json (.arr [a, .str "o", .str s])) =
      .ok ([],
        { st with skip_mode := true, target_pattern := targetOf row col,
                  skip_start_time := t }) :=
  procLine_entry h0 h1 h2 h3 h4

/-- Witness for C3 at a concrete record. -/
theorem c3_skip_entry_w :
    procLine initS (.json (.arr [.num 2, .str "o", .str "\x1b[5;10HAtuin"])) =
      .ok ([],
        { initS with skip_mode := true, target_pattern := targetOf "5" 10,
                     skip_start_time := 2 }) :=
  c3_skip_entry initS (.num 2) 2 "\x1b[5;10HAtuin" "5" 10 rfl rfl
    (by decide) (by decide) (by decide)

/-- Claim C4 (confirmed).  With a skip session active, a well-typed
output-event record whose text lacks the exit pattern is discarded with no
output and no state change; the first record whose text contains the exit
pattern is emitted (not dropped): `time_offset` grows by the record's
timestamp minus the skip start time, the emitted timestamp is
max(t - time_offset, last_timestamp) with the updated offset, and the skip
flag is cleared. -/
theorem c4_skip_exit_step (st : S) (a : Json) (t : ℚ) (s : String)
    (h0 : st.skip_mode = true) (h1 : pyFloat? a = some t) :
    (hasSub st.target_pattern s.data = false →
      procLine st (.json (.arr [a, .str "o", .str s])) = .ok ([], st)) ∧
    (hasSub st.target_pattern s.data = true →
      procLine st (.json (.arr [a, .str "o", .str s])) =
        .ok ([mkEv (max (t - (st.time_offset + (t - st.skip_start_time)))
                        st.last_timestamp) s],
             { st with skip_mode := false,
                       time_offset := st.time_offset + (t - st.skip_start_time),
                       last_timestamp :=
                         max (t - (st.time_offset + (t - st.skip_start_time)))
                             st.last_timestamp })) :=
  ⟨fun ht => procLine_skip_drop h0 h1 ht, fun ht => procLine_skip_exit h0 h1 ht⟩

/-- Witness for C4 at a concrete skip state and exit record. -/
theorem c4_skip_exit_step_w :
    procLine ⟨true, "\x1b[5;9H".data, 2, 1, 0⟩
        (.json (.arr [.num 3, .str "o", .str "\x1b[5;9Hdone"])) =
      .ok ([mkEv (max (3 - (0 + (3 - 2))) 1) "\x1b[5;9Hdone"],
            ⟨false, "\x1b[5;9H".data, 2, max (3 - (0 + (3 - 2))) 1, 0 + (3 - 2)⟩) :=
  (c4_skip_exit_step ⟨true, "\x1b[5;9H".data, 2, 1, 0⟩ (.num 3) 3 "\x1b[5;9Hdone"
    rfl rfl).2 (by decide)

/-- Claim C10 (confirmed).  While a skip session is active, lines that are
not well-formed output-event records (unparseable lines and JSON values
failing the 3-element-array-with-"o" test) are still copied through
unchanged with no state change: a skip suppresses only event records. -/
theorem c10_passthrough_in_skip (st : S) (h : st.skip_mode = true) :
    (∀ s, procLine st (.raw s) = .ok ([.raw s], st)) ∧
    (∀ v, recParts? v = none → procLine st (.json v) = .ok ([.json v], st)) :=
  ⟨fun s => procLine_pass_raw st s, fun _ hv => procLine_pass_json st hv⟩

/-- Witness for C10 at a concrete skip state. -/
theorem c10_passthrough_in_skip_w :
    procLine ⟨true, [], 0, 0, 0⟩ (.raw "oops") = .ok ([.raw "oops"], ⟨true, [], 0, 0, 0⟩) ∧
    procLine ⟨true, [], 0, 0, 0⟩ (.json (.num 7)) =
      .ok ([.json (.num 7)], ⟨true, [], 0, 0, 0⟩) :=
  ⟨(c10_passthrough_in_skip ⟨true, [], 0, 0, 0⟩ rfl).1 "oops",
   (c10_passthrough_in_skip ⟨true, [], 0, 0, 0⟩ rfl).2 (.num 7) rfl⟩

/-- Counterexample to claim C2 as stated: a line that parses to a
3-element "o"-array whose first element is `null` makes `float(record[0])`
raise an uncaught TypeError, so the run aborts mid-stream instead of
continuing to the end of the input. -/
theorem c2_aborts :
    (processFile [Line.raw "h",
        Line.json (.arr [.null, .str "o", .str "x"])]).err.isSome = true := rfl

/-- Claim C2 (amended, proved).  Lines that fail to parse or fail the
record test are copied through verbatim with no state change, and the run
reaches the end of the input provided every record-shaped line has a
float-convertible first element and a string third element. -/
theorem c2_passthrough_total (st : S) (ls : List Line)
    (h : lineOkAll ls = true) :
    (run st ls).err = none ∧
    (∀ s, procLine st (.raw s) = .ok ([.raw s], st)) ∧
    (∀ v, recParts? v = none → procLine st (.json v) = .ok ([.json v], st)) :=
  ⟨run_err_none ls st h,
   fun s => procLine_pass_raw st s,
   fun _ hv => procLine_pass_json st hv⟩

/-- Witness for C2 on a concrete well-formed input. -/
theorem c2_passthrough_total_w :
    (run initS [Line.raw "x", mkEv 1 "a"]).err = none :=
  (c2_passthrough_total initS [Line.raw "x", mkEv 1 "a"] (by decide)).1

/-- Counterexample to claim C5 as stated: with no Atuin marker anywhere
and sorted event timestamps, the output can still differ from the input,
because a negative first timestamp is clamped up to the initial
`last_timestamp` of 0. -/
theorem c5_not_identity :
    noMarkerAll [Line.raw "h", mkEv (-1) "a"] = true ∧
    sortedB (evTimes [Line.raw "h", mkEv (-1) "a"]) = true ∧
    (processFile [Line.raw "h", mkEv (-1) "a"]).err = none ∧
    (processFile [Line.raw "h", mkEv (-1) "a"]).out ≠ [Line.raw "h", mkEv (-1) "a"] := by
  have hstep : procLine initS (mkEv (-1) "a") =
      .ok ([mkEv (max ((-1 : ℚ) - 0) 0) "a"],
           { initS with last_timestamp := max ((-1 : ℚ) - 0) 0 }) :=
    procLine_emit (a := Json.num (-1)) rfl rfl (by decide)
  have hmax : max ((-1 : ℚ) - 0) 0 = 0 := by norm_num
  rw [hmax] at hstep
  have hrun : run initS [mkEv (-1) "a"] =
      ⟨[mkEv 0 "a"], { initS with last_timestamp := 0 }, none⟩ := by
    rw [run_cons_ok hstep]
    simp [run]
  refine ⟨by decide, by decide, ?_, ?_⟩
  · show (run initS [mkEv (-1) "a"]).err = none
    rw [hrun]
  · intro hcontra
    have hout : (processFile [Line.raw "h", mkEv (-1) "a"]).out
        = [Line.raw "h", mkEv 0 "a"] := by
      show Line.raw "h" :: (run initS [mkEv (-1) "a"]).out = _
      rw [hrun]
    rw [hout] at hcontra
    exact absurd (congrArg evTimes hcontra) (by decide)

/-- Claim C5 (amended, proved).  If no line can start a skip session and
every record-shaped line is well formed, the record loop emits exactly the
clamp of the input: each event timestamp replaced by max(t, running
maximum), other lines verbatim, and the run completes.  When the input is
additionally in emitted normal form with non-decreasing event timestamps
starting at or above 0 (`segOk 0 0`), the clamp is the identity, so the
output equals the input. -/
theorem c5_clamp (ls : List Line)
    (hok : lineOkAll ls = true) (hnm : noMarkerAll ls = true) :
    (run initS ls).out = clampSpec 0 ls ∧
    (run initS ls).err = none ∧
    (segOk 0 0 ls = true → clampSpec 0 ls = ls) := by
  obtain ⟨ho, he⟩ := clamp_run ls initS rfl hok hnm
  refine ⟨?_, he, ?_⟩
  · rw [ho]
    exact clampOff_zero ls 0
  · intro hseg
    have hid := segOk_clamp_id ls 0 0 hseg
    rwa [add_zero] at hid

/-- Witness for C5 on a concrete marker-free input. -/
theorem c5_clamp_w :
    (run initS [mkEv 1 "a", Line.raw "x", mkEv 2 "b"]).out
      = clampSpec 0 [mkEv 1 "a", Line.raw "x", mkEv 2 "b"] :=
  (c5_clamp [mkEv 1 "a", Line.raw "x", mkEv 2 "b"] (by decide) (by decide)).1

/-- Counterexample to claim C8 as stated: on an input whose event
timestamps are not sorted, closing a skip session at a timestamp earlier
than the skip start makes `time_offset` decrease below its initial 0. -/
theorem c8_offset_decreases :
    initS.time_offset = 0 ∧
    (run initS [mkEv 5 "\x1b[5;10HAtuin", mkEv 2 "\x1b[5;9H"]).st.time_offset
      < initS.time_offset := by
  have hE : procLine initS (mkEv 5 "\x1b[5;10HAtuin") =
      .ok ([], ⟨true, targetOf "5" 10, 5, 0, 0⟩) :=
    procLine_entry (a := Json.num 5) (m := ("5", 10)) rfl rfl
      (by decide) (by decide) (by decide)
  have hX : procLine ⟨true, targetOf "5" 10, 5, 0, 0⟩ (mkEv 2 "\x1b[5;9H") =
      .ok ([mkEv (max ((2 : ℚ) - (0 + (2 - 5))) 0) "\x1b[5;9H"],
           ⟨false, targetOf "5" 10, 5, max ((2 : ℚ) - (0 + (2 - 5))) 0, 0 + (2 - 5)⟩) :=
    @procLine_skip_exit ⟨true, targetOf "5" 10, 5, 0, 0⟩ (Json.num 2) 2 "\x1b[5;9H"
      rfl rfl (by decide)
  have hrun : run initS [mkEv 5 "\x1b[5;10HAtuin", mkEv 2 "\x1b[5;9H"] =
      ⟨[mkEv (max ((2 : ℚ) - (0 + (2 - 5))) 0) "\x1b[5;9H"],
       ⟨false, targetOf "5" 10, 5, max ((2 : ℚ) - (0 + (2 - 5))) 0, 0 + (2 - 5)⟩,
       none⟩ := by
    rw [run_cons_ok hE, run_cons_ok hX]
    simp [run]
  refine ⟨rfl, ?_⟩
  rw [hrun]
  show (0 : ℚ) + (2 - 5) < 0
  norm_num

/-- Claim C8 (amended, proved).  Both timeline variables start at zero.
`last_timestamp` is monotonically non-decreasing over every run of the
loop, unconditionally (so over every prefix of processed lines, by
`run_append_ok`).  `time_offset` is monotonically non-decreasing provided
the event timestamps of the remaining input are non-decreasing and, when a
skip session is already open, not below its start time; for unsorted
inputs it can decrease. -/
theorem c8_monotone :
    initS.last_timestamp = 0 ∧ initS.time_offset = 0 ∧
    (∀ (st : S) (ls : List Line),
      st.last_timestamp ≤ (run st ls).st.last_timestamp) ∧
    (∀ (st : S) (ls : List Line),
      (st.skip_mode = true → allLe st.skip_start_time (evTimes ls) = true) →
      sortedB (evTimes ls) = true →
      st.time_offset ≤ (run st ls).st.time_offset) :=
  ⟨rfl, rfl, fun st ls => (run_main ls st).2.1, fun st ls h1 h2 => off_mono ls st h1 h2⟩

/-- Witness for C8 on a concrete sorted input. -/
theorem c8_monotone_w :
    initS.time_offset ≤ (run initS [mkEv 1 "a", mkEv 2 "b"]).st.time_offset :=
  c8_monotone.2.2.2 initS [mkEv 1 "a", mkEv 2 "b"] (by decide) (by decide)

/-- Counterexample to claim C9 as stated: after a skip session begins with
no later exit pattern, the run does not always complete normally — a
malformed record-shaped line ([null,"o","zz"]) still aborts it. -/
theorem c9_unending_skip_aborts :
    hasSub (targetOf "5" 10) "zz".data = false ∧
    (processFile [Line.raw "h", mkEv 5 "\x1b[5;10HAtuin",
                  Line.json (.arr [.null, .str "o", .str "zz"])]).err.isSome = true :=
  ⟨rfl, rfl⟩

/-- Claim C9 (amended, proved).  With a skip session active and no
remaining event text containing the exit pattern, every well-formed
output-event record to the end of the input is silently dropped, the
pass-through lines are still copied, the state never changes, and the run
completes normally — provided every record-shaped line is well formed (a
malformed one aborts the run instead). -/
theorem c9_unterminated_skip (st : S) (h0 : st.skip_mode = true) :
    ∀ ls : List Line, lineOkAll ls = true →
    noTargetAll st.target_pattern ls = true →
    run st ls = ⟨ls.filter isPass, st, none⟩ := by
  intro ls
  induction ls with
  | nil => intro _ _; simp [run]
  | cons l rest ih =>
    intro h1 h2
    simp only [lineOkAll, List.all_cons, Bool.and_eq_true] at h1
    simp only [noTargetAll, List.all_cons, Bool.and_eq_true] at h2
    obtain ⟨h1a, h1b⟩ := h1
    obtain ⟨h2a, h2b⟩ := h2
    rcases lineOk_cases h1a with hp | ⟨a, t, s, hl, hf⟩
    · rw [run_cons_ok (procLine_pass hp), ih h1b h2b]
      simp [List.filter_cons, hp]
    · have htx : textOf? l = some s := by rw [hl]; rfl
      have hnt : hasSub st.target_pattern s.data = false := by
        simp only [htx] at h2a
        simpa using h2a
      have hstep : procLine st l = .ok ([], st) := by
        rw [hl]
        exact procLine_skip_drop h0 hf hnt
      rw [run_cons_ok hstep, ih h1b h2b]
      have hps : isPass l = false := by
        rw [hl]
        simp [isPass, recParts?]
      simp [List.filter_cons, hps]

/-- Witness for C9 at a concrete skip state. -/
theorem c9_unterminated_skip_w :
    run ⟨true, ['q'], 0, 0, 0⟩ [mkEv 3 "a", Line.raw "zz"]
      = ⟨List.filter isPass [mkEv 3 "a", Line.raw "zz"], ⟨true, ['q'], 0, 0, 0⟩, none⟩ :=
  c9_unterminated_skip ⟨true, ['q'], 0, 0, 0⟩ rfl [mkEv 3 "a", Line.raw "zz"]
    (by decide) (by decide)

/-- Claim C6 (confirmed).  Feeding the filter its own output back, when
that output can start no skip session, reproduces the output exactly (at
the level of lines; pass-through lines are byte-verbatim and emitted lines
re-serialize to themselves) and the second run completes.  This holds even
when the first run was stopped by an uncaught exception, for the partial
output it left. -/
theorem c6_idempotent (ls : List Line)
    (h : noMarkerAll (processFile ls).out = true) :
    (processFile ((processFile ls).out)).out = (processFile ls).out ∧
    (processFile ((processFile ls).out)).err = none := by
  cases ls with
  | nil => exact ⟨rfl, rfl⟩
  | cons hd rest =>
    have hout : (processFile (hd :: rest)).out = hd :: (run initS rest).out := rfl
    rw [hout] at h ⊢
    simp only [noMarkerAll, List.all_cons, Bool.and_eq_true] at h
    obtain ⟨-, htail⟩ := h
    have hwf : OutWF 0 (run initS rest).out := (run_main rest initS).1
    have hseg : segOk 0 0 (run initS rest).out = true :=
      outWF_segOk ((run initS rest).out) 0 hwf htail
    have hrun := seg_run ((run initS rest).out) initS rfl hseg
    constructor
    · show hd :: (run initS ((run initS rest).out)).out = hd :: (run initS rest).out
      rw [hrun]
      rw [show initS.time_offset = 0 from rfl, map_shiftEv_zero]
    · show (run initS ((run initS rest).out)).err = none
      rw [hrun]

/-- Witness for C6 on a concrete file. -/
theorem c6_idempotent_w :
    (processFile ((processFile [Line.raw "h", mkEv 1 "a"]).out)).out
      = (processFile [Line.raw "h", mkEv 1 "a"]).out := by
  have hstep : procLine initS (mkEv 1 "a") =
      .ok ([mkEv (max ((1 : ℚ) - 0) 0) "a"],
           { initS with last_timestamp := max ((1 : ℚ) - 0) 0 }) :=
    procLine_emit (a := Json.num 1) rfl rfl (by decide)
  have hmax : max ((1 : ℚ) - 0) 0 = 1 := by norm_num
  rw [hmax] at hstep
  have hrun : run initS [mkEv 1 "a"] =
      ⟨[mkEv 1 "a"], { initS with last_timestamp := 1 }, none⟩ := by
    rw [run_cons_ok hstep]
    simp [run]
  refine (c6_idempotent [Line.raw "h", mkEv 1 "a"] ?_).1
  show noMarkerAll (Line.raw "h" :: (run initS [mkEv 1 "a"]).out) = true
  rw [hrun]
  decide

/-- Counterexample to claim C7 as stated: with unsorted timestamps inside
the skipped window, the clamping makes the post-exit record come out at 6,
not at the unfiltered baseline 100 minus the window length 4. -/
theorem c7_unsorted_cex :
    (run initS [mkEv 1 "a", mkEv 5 "\x1b[5;10HAtuin", mkEv 100 "m",
                mkEv 9 "\x1b[5;9H", mkEv 10 "b"]).out
      = [mkEv 1 "a", mkEv 5 "\x1b[5;9H", mkEv 6 "b"] ∧
    clampSpec 0 [mkEv 1 "a", mkEv 5 "\x1b[5;10HAtuin", mkEv 100 "m",
                 mkEv 9 "\x1b[5;9H", mkEv 10 "b"]
      = [mkEv 1 "a", mkEv 5 "\x1b[5;10HAtuin", mkEv 100 "m",
         mkEv 100 "\x1b[5;9H", mkEv 100 "b"] ∧
    (6 : ℚ) ≠ 100 - (9 - 5) := by
  have s1 : procLine initS (mkEv 1 "a") =
      .ok ([mkEv (max ((1 : ℚ) - 0) 0) "a"], ⟨false, [], 0, max ((1 : ℚ) - 0) 0, 0⟩) :=
    procLine_emit (a := Json.num 1) rfl rfl (by decide)
  have hm1 : max ((1 : ℚ) - 0) 0 = 1 := by norm_num
  rw [hm1] at s1
  have s2 : procLine ⟨false, [], 0, 1, 0⟩ (mkEv 5 "\x1b[5;10HAtuin") =
      .ok ([], ⟨true, targetOf "5" 10, 5, 1, 0⟩) :=
    procLine_entry (a := Json.num 5) (m := ("5", 10)) rfl rfl
      (by decide) (by decide) (by decide)
  have s3 : procLine ⟨true, targetOf "5" 10, 5, 1, 0⟩ (mkEv 100 "m") =
      .ok ([], ⟨true, targetOf "5" 10, 5, 1, 0⟩) :=
    @procLine_skip_drop ⟨true, targetOf "5" 10, 5, 1, 0⟩ (Json.num 100) 100 "m"
      rfl rfl (by decide)
  have s4 : procLine ⟨true, targetOf "5" 10, 5, 1, 0⟩ (mkEv 9 "\x1b[5;9H") =
      .ok ([mkEv (max ((9 : ℚ) - (0 + (9 - 5))) 1) "\x1b[5;9H"],
           ⟨false, targetOf "5" 10, 5, max ((9 : ℚ) - (0 + (9 - 5))) 1, 0 + (9 - 5)⟩) :=
    @procLine_skip_exit ⟨true, targetOf "5" 10, 5, 1, 0⟩ (Json.num 9) 9 "\x1b[5;9H"
      rfl rfl (by decide)
  have hm4 : max ((9 : ℚ) - (0 + (9 - 5))) 1 = 5 := by norm_num
  have ho4 : (0 : ℚ) + (9 - 5) = 4 := by norm_num
  rw [hm4, ho4] at s4
  have s5 : procLine ⟨false, targetOf "5" 10, 5, 5, 4⟩ (mkEv 10 "b") =
      .ok ([mkEv (max ((10 : ℚ) - 4) 5) "b"],
           ⟨false, targetOf "5" 10, 5, max ((10 : ℚ) - 4) 5, 4⟩) :=
    procLine_emit (a := Json.num 10) rfl rfl (by decide)
  have hm5 : max ((10 : ℚ) - 4) 5 = 6 := by norm_num
  rw [hm5] at s5
  have hrun : run initS [mkEv 1 "a", mkEv 5 "\x1b[5;10HAtuin", mkEv 100 "m",
      mkEv 9 "\x1b[5;9H", mkEv 10 "b"] =
      ⟨[mkEv 1 "a", mkEv 5 "\x1b[5;9H", mkEv 6 "b"],
       ⟨false, targetOf "5" 10, 5, 6, 4⟩, none⟩ := by
    rw [run_cons_ok s1, run_cons_ok s2, run_cons_ok s3, run_cons_ok s4, run_cons_ok s5]
    simp [run]
  refine ⟨by rw [hrun], by rfl, by norm_num⟩

/-- Claim C7 (amended, proved).  For a file made of a sorted marker-free
prefix, an entry record at `t0` whose first cursor-position match is
ESC[5;10H with "Atuin", a skipped window of well-formed records none
containing ESC[5;9H, an exit record at `t1` containing ESC[5;9H, and a
sorted tail whose event timestamps stay at or above `t1`: the prefix is
emitted unchanged, the entry record and the whole window are dropped, the
exit record is kept and emitted at `t0`, and every later event with input
timestamp `t` is emitted at `t - (t1 - t0)` — which is `(t1 - t0)` less
than the unfiltered clamp baseline, since that baseline leaves the sorted
tail at its input timestamps (`clampSpec t1 post = post`). -/
theorem c7_skip_window (pre mid post : List Line) (t0 t1 : ℚ) (sE sX : String)
    (h1 : segOk 0 0 pre = true)
    (h2 : segLast 0 0 pre ≤ t0)
    (h3 : hasSub escBr sE.data = true)
    (h4 : hasSub atuin sE.data = true)
    (h5 : searchAnsi sE.data = some ("5", 10))
    (h6 : midOk (targetOf "5" 10) mid = true)
    (h7 : hasSub (targetOf "5" 10) sX.data = true)
    (h8 : segOk (t1 - t0) t0 post = true) :
    (run initS (pre ++ (mkEv t0 sE :: (mid ++ (mkEv t1 sX :: post))))).out
      = pre ++ mkEv t0 sX :: post.map (shiftEv (t1 - t0)) ∧
    (run initS (pre ++ (mkEv t0 sE :: (mid ++ (mkEv t1 sX :: post))))).err = none ∧
    clampSpec t1 post = post := by
  have hpre : run initS pre =
      ⟨pre.map (shiftEv 0), ⟨false, [], 0, segLast 0 0 pre, 0⟩, none⟩ :=
    seg_run pre initS rfl h1
  rw [map_shiftEv_zero] at hpre
  have hE : procLine ⟨false, [], 0, segLast 0 0 pre, 0⟩ (mkEv t0 sE) =
      .ok ([], ⟨true, targetOf "5" 10, t0, segLast 0 0 pre, 0⟩) :=
    procLine_entry (a := Json.num t0) (m := ("5", 10)) rfl rfl h3 h4 h5
  have hmid : run ⟨true, targetOf "5" 10, t0, segLast 0 0 pre, 0⟩ mid =
      ⟨[], ⟨true, targetOf "5" 10, t0, segLast 0 0 pre, 0⟩, none⟩ :=
    skip_run mid _ rfl h6
  have hX : procLine ⟨true, targetOf "5" 10, t0, segLast 0 0 pre, 0⟩ (mkEv t1 sX) =
      Except.ok ([mkEv (max (t1 - (0 + (t1 - t0))) (segLast 0 0 pre)) sX],
           ⟨false, targetOf "5" 10, t0,
            max (t1 - (0 + (t1 - t0))) (segLast 0 0 pre), 0 + (t1 - t0)⟩) :=
    @procLine_skip_exit ⟨true, targetOf "5" 10, t0, segLast 0 0 pre, 0⟩ (Json.num t1) t1 sX
      rfl rfl h7
  have hadj : max (t1 - (0 + (t1 - t0))) (segLast 0 0 pre) = t0 := by
    rw [show t1 - (0 + (t1 - t0)) = t0 from by ring]
    exact max_eq_left h2
  rw [hadj, zero_add] at hX
  have hpost : run ⟨false, targetOf "5" 10, t0, t0, t1 - t0⟩ post =
      ⟨post.map (shiftEv (t1 - t0)),
       ⟨false, targetOf "5" 10, t0, segLast (t1 - t0) t0 post, t1 - t0⟩, none⟩ :=
    seg_run post _ rfl h8
  have hXpost : run ⟨true, targetOf "5" 10, t0, segLast 0 0 pre, 0⟩
      (mkEv t1 sX :: post) =
      ⟨mkEv t0 sX :: post.map (shiftEv (t1 - t0)),
       ⟨false, targetOf "5" 10, t0, segLast (t1 - t0) t0 post, t1 - t0⟩, none⟩ := by
    rw [run_cons_ok hX, hpost]
    simp
  have hmidX : run ⟨true, targetOf "5" 10, t0, segLast 0 0 pre, 0⟩
      (mid ++ mkEv t1 sX :: post) =
      ⟨mkEv t0 sX :: post.map (shiftEv (t1 - t0)),
       ⟨false, targetOf "5" 10, t0, segLast (t1 - t0) t0 post, t1 - t0⟩, none⟩ := by
    rw [run_append_ok hmid, hXpost]
    simp
  have hfull : run ⟨false, [], 0, segLast 0 0 pre, 0⟩
      (mkEv t0 sE :: (mid ++ (mkEv t1 sX :: post))) =
      ⟨mkEv t0 sX :: post.map (shiftEv (t1 - t0)),
       ⟨false, targetOf "5" 10, t0, segLast (t1 - t0) t0 post, t1 - t0⟩, none⟩ := by
    rw [run_cons_ok hE, hmidX]
    simp
  have htotal := run_append_ok hpre (mkEv t0 sE :: (mid ++ (mkEv t1 sX :: post)))
  rw [hfull] at htotal
  refine ⟨by rw [htotal], by rw [htotal], ?_⟩
  have hid := segOk_clamp_id post (t1 - t0) t0 h8
  rwa [show t0 + (t1 - t0) = t1 from by ring] at hid

/-- Witness for C7 with empty prefix, window and tail. -/
theorem c7_skip_window_w :
    (run initS ([] ++ (mkEv 2 "\x1b[5;10HAtuin" :: ([] ++ (mkEv 4 "\x1b[5;9Hd" :: []))))).out
      = [] ++ mkEv 2 "\x1b[5;9Hd" :: ([] : List Line).map (shiftEv (4 - 2)) :=
  (c7_skip_window [] [] [] 2 4 "\x1b[5;10HAtuin" "\x1b[5;9Hd" rfl (by decide)
    (by decide) (by decide) (by decide) rfl (by decide) rfl).1
